import Mathlib

/-!
Verification of the peptide-encoding / MHC-I predictor notebook
(src/epitope/mhci_lesson.ipynb) against its specification.

The notebook's own code consists of peptide-encoding functions, a
training guard, an AUC metric wrapper and a batch-evaluation loop; the
heavy numerics (the MLP regressor, sklearn's roc_curve/auc, the external
NLF and BLOSUM62 reference tables, the IEDB training data) live in
external libraries or downloaded data.  Those externals are modelled as
explicit parameters or spec-modelled tables; everything the notebook
itself computes is embedded directly below.
-/

set_option autoImplicit false
set_option maxRecDepth 8192

namespace Mhci

/-- The 20-letter amino-acid alphabet.  The constructors are listed in
the alphabetical order of the one-letter codes, matching the literal
list `codes` in cell-4 of the notebook. -/
inductive AA
  | A | C | D | E | F | G | H | I | K | L
  | M | N | P | Q | R | S | T | V | W | Y
deriving DecidableEq

/-- Embedding of the module-level list
`codes = ['A','C','D','E','F','G','H','I','K','L','M','N','P','Q','R','S','T','V','W','Y']`
(cell-4): the 20 amino-acid codes in alphabetical order. -/
def codes : List AA :=
  [.A, .C, .D, .E, .F, .G, .H, .I, .K, .L,
   .M, .N, .P, .Q, .R, .S, .T, .V, .W, .Y]

/-- Index of an amino acid in the alphabetically sorted alphabet `codes`. -/
def aaIndex : AA → ℕ
  | .A => 0 | .C => 1 | .D => 2 | .E => 3 | .F => 4
  | .G => 5 | .H => 6 | .I => 7 | .K => 8 | .L => 9
  | .M => 10 | .N => 11 | .P => 12 | .Q => 13 | .R => 14
  | .S => 15 | .T => 16 | .V => 17 | .W => 18 | .Y => 19

/-- The module-level sample peptide `pep = 'ALDFEQEMT'` (cell-4). -/
def pep : List AA := [.A, .L, .D, .F, .E, .Q, .E, .M, .T]

/-- Embedding of `one_hot_encode(seq)` (cell-4) for a peptide over the
20-letter alphabet.  In the source, `s[0].str.get_dummies(sep=',')`
builds one indicator column per distinct letter of `seq` (row `i` holds
a single 1 in the column of `seq[i]`), `a.join(x)` adds an all-zero
column for each of the codes absent from `seq`
(`o = list(set(codes) - set(seq))`), and `a.sort_index(axis=1)` orders
the resulting 20 columns alphabetically, i.e. exactly in the order of
`codes`.  `a.values.flatten()` then concatenates the rows, so row `i`
of the flattened output is the indicator vector of `seq[i]` over
`codes`. -/
def one_hot_encode (seq : List AA) : List ℕ :=
  (seq.map fun a => codes.map fun c => if c = a then 1 else 0).flatten

/-- Return value of the embedded `nlf_encode`.  The source (cell-6)
ends with `e = x.values.flatten` — without call parentheses — so the
function returns the *bound `flatten` method* of the ndarray holding
the feature matrix, not a flat vector.  The two constructors
distinguish those two kinds of Python value. -/
inductive NlfResult
  | boundFlatten (rows : List (List ℚ))
  | flat (v : List ℚ)
deriving DecidableEq

/-- Embedding of `nlf_encode(seq)` (cell-6).  `nlf` is the external NLF
reference table (a CSV downloaded from github, not in src/), passed as
a parameter mapping each amino acid to its feature column.
`pd.DataFrame([nlf[i] for i in seq])` stacks the columns of the letters
of `seq` as rows of the matrix `x`; `e = x.values.flatten` then returns
the bound `flatten` method of that matrix (the call parentheses are
missing in the source), and that method object is what the function
returns. -/
def nlf_encode (nlf : AA → List ℚ) (seq : List AA) : NlfResult :=
  NlfResult.boundFlatten (seq.map nlf)

/-- Modelled from the spec: the behaviour `nlf_encode` is documented to
have (spec section 4.1, and cell-3 of the notebook: the flatten command
re-arranges the 2-D matrix into a 1-D format, and this applies to the
other encoding methods also), namely actually calling `flatten()`:
concatenate the per-position NLF feature vectors positionally. -/
def nlf_encode_intended (nlf : AA → List ℚ) (seq : List AA) : List ℚ :=
  (seq.map nlf).flatten

/-- Embedding of `blosum_encode(seq)` (cell-8).  `blosum` is the
external matrix `ep.blosum62` (from the epitopepredict package, not in
src/), passed as a parameter mapping each amino acid to its BLOSUM62
column.  `pd.DataFrame([blosum[i] for i in seq])` stacks the columns of
the letters of `seq` as rows, and `x.values.flatten()` concatenates the
rows positionally. -/
def blosum_encode (blosum : AA → List ℚ) (seq : List AA) : List ℚ :=
  (seq.map blosum).flatten

/-- Embedding of `random_encode(p)` (cell-8):
`return [np.random.randint(20) for i in pep]`.  The comprehension
iterates over the module-level `pep`, never over the parameter `p`, and
draws one random integer in `[0, 20)` per iteration.  The external
random-number generator is modelled as a stream `rng` of draws already
constrained to `Fin 20`, the contract of `np.random.randint(20)`. -/
def random_encode (rng : ℕ → Fin 20) (p : List AA) : List ℕ :=
  (List.range pep.length).map fun i => (rng i).val

/-- Embedding of the linearization formula stated in cell-9 of the
notebook: `log50k = 1 - log(ic50) / log(50000)`. -/
noncomputable def log50k (ic50 : ℝ) : ℝ :=
  1 - Real.log ic50 / Real.log 50000

/-- One row of the external training data (cell-10 shows the columns
allele, peptide, ic50, length, log50k).  Allele identifiers are
modelled as natural numbers; the numeric columns as rationals. -/
structure TrainRecord where
  allele : ℕ
  peptide : List AA
  ic50 : ℚ
  length : ℕ
  log50k : ℚ

/-- Modelled from the spec: `ep.get_training_set(...)` (external
epitopepredict data access, not in src/) returns the rows of the
training table `d`, optionally restricted to one allele and to one
peptide length, as the notebook calls it with `allele`, with
`length=9`, or with both. -/
def get_training_set (d : List TrainRecord) (allele : Option ℕ)
    (lengthFilter : Option ℕ) : List TrainRecord :=
  let d1 := match allele with
    | some a => d.filter fun r => r.allele == a
    | none => d
  match lengthFilter with
  | some n => d1.filter fun r => r.length == n
  | none => d1

/-- The state of the external MLP regressor after `reg.fit(X, y)`: the
fit is delegated entirely to scikit-learn, so the embedding records
exactly what the notebook passes to it. -/
structure FittedRegressor where
  X : List (List ℚ)
  y : List ℚ

/-- Embedding of `build_predictor(allele, encoder)` (cell-14):
`data = ep.get_training_set(allele)`; `if len(data)<200: return` (i.e.
Python returns None, producing no model); otherwise
`X = data.peptide.apply(...encoder...)`, `y = data.log50k`,
`reg.fit(X, y)`, `return reg`.  The external training table `d` is a
parameter. -/
def build_predictor (d : List TrainRecord) (allele : ℕ)
    (encoder : List AA → List ℚ) : Option FittedRegressor :=
  let data := get_training_set d (some allele) none
  if data.length < 200 then none
  else some ⟨data.map fun r => encoder r.peptide, data.map fun r => r.log50k⟩

/-- Embedding of `get_allele_names()` (cell-16):
`d = ep.get_training_set(length=9)`; `a = d.allele.value_counts()`;
`a = a[a>200]`; `return list(a.index)` — the distinct alleles whose
number of length-9 training rows is strictly greater than 200
(`value_counts` orders by count, which no claim depends on; the
embedding lists them in first-occurrence order).  `allele_count9 d a`
is the value `d.allele.value_counts()[a]`: the number of length-9
training rows of allele `a`. -/
def allele_count9 (d : List TrainRecord) (a : ℕ) : ℕ :=
  ((get_training_set d none (some 9)).filter fun r => r.allele == a).length

/-- See `allele_count9`: the body of `get_allele_names()` (cell-16). -/
def get_allele_names (d : List TrainRecord) : List ℕ :=
  ((get_training_set d none (some 9)).map fun r => r.allele).dedup.filter
    fun a => decide (200 < allele_count9 d a)

/-- Embedding of `(v <= cutoff).astype(int)` applied elementwise to a
numeric column, as done on both arguments inside `auc_score`
(cell-12). -/
def binarize (c : ℚ) (l : List ℚ) : List ℚ :=
  l.map fun v => if v ≤ c then 1 else 0

/-- Contribution of one (positive score, negative score) pair to the
Mann-Whitney form of the ROC AUC: 1 if the pair is ranked correctly,
1/2 on a tie, 0 otherwise. -/
def pairWins (sp sn : ℚ) : ℚ :=
  if sn < sp then 1 else if sp = sn then 1 / 2 else 0

/-- Modelled from the spec: `metrics.roc_curve(true, sc, pos_label=1)`
followed by `metrics.auc(fpr, tpr)` (external scikit-learn calls, not
in src/).  The trapezoidal area under the ROC curve equals the
Mann-Whitney statistic: the fraction of (positive, negative) pairs —
positives being the entries whose true label equals 1, per
`pos_label=1` — whose scores are ranked correctly, ties counting
half. -/
def rocAuc (labels : List ℚ) (scores : List ℚ) : ℚ :=
  let pairs := labels.zip scores
  let pos := (pairs.filter fun p => p.1 == 1).map fun p => p.2
  let neg := (pairs.filter fun p => p.1 != 1).map fun p => p.2
  (pos.map fun sp => (neg.map fun sn => pairWins sp sn).sum).sum /
    ((pos.length : ℚ) * (neg.length : ℚ))

/-- Embedding of `auc_score(true, sc, cutoff=None)` (cell-12): when a
cutoff is given, both the true values and the scores are binarized with
`<= cutoff` before the ROC computation; then
`roc_curve(true, sc, pos_label=1)` and `auc` produce the result. -/
def auc_score (tr : List ℚ) (sc : List ℚ) (cutoff : Option ℚ) : ℚ :=
  match cutoff with
  | some c => rocAuc (binarize c tr) (binarize c sc)
  | none => rocAuc tr sc

/-- One row of the external evaluation data for an allele: a peptide
and its measured ic50 (`ep.get_evaluation_set(allele, length=9)`). -/
structure EvalRecord where
  peptide : List AA
  ic50 : ℚ

/-- Embedding of `evaluate_predictor(P, allele)` (cell-18).  The
external predictor is modelled by its score function `scoreFn`
(`P.predict_peptides` followed by `P.get_scores(allele)` yields one
score per peptide); `data.merge(x, on='peptide')` pairs each evaluation
row's ic50 with the score of its peptide; then
`auc = auc_score(x.ic50, x.score, cutoff=500)` and the function returns
`auc, data`. -/
def evaluate_predictor (scoreFn : List AA → ℚ) (data : List EvalRecord) :
    ℚ × List EvalRecord :=
  let x := data.map fun r => (r.ic50, scoreFn r.peptide)
  (auc_score (x.map fun p => p.1) (x.map fun p => p.2) (some 500), data)

/-- Embedding of the batch-evaluation loop of cell-18 for one predictor:
`m=[]`, then for each allele `a` in order, `try` to evaluate — on
success `m.append((a, auc, len(df)))`, on exception `print(a, e)` and
continue (`pass`).  Evaluation of one allele is modelled as a function
`ev` into `Except`, where `Except.error` is a raised exception; the
result is the collected rows together with the log of printed
`(allele, exception)` pairs. -/
def evalStep (ev : ℕ → Except String (ℚ × ℕ))
    (acc : List (ℕ × ℚ × ℕ) × List (ℕ × String)) (a : ℕ) :
    List (ℕ × ℚ × ℕ) × List (ℕ × String) :=
  match ev a with
  | Except.ok r => (acc.1 ++ [(a, r.1, r.2)], acc.2)
  | Except.error e => (acc.1, acc.2 ++ [(a, e)])

/-- See `evalStep`: the whole loop over the alleles of the evaluation
set, starting from `m=[]` and an empty log. -/
def evalLoop (ev : ℕ → Except String (ℚ × ℕ)) (alleles : List ℕ) :
    List (ℕ × ℚ × ℕ) × List (ℕ × String) :=
  alleles.foldl (evalStep ev) ([], [])

/-! ### Helper lemmas about flattened constant-width matrices -/

theorem flatten_length_const {α : Type} (w : ℕ) (rows : List (List α))
    (hw : ∀ r ∈ rows, r.length = w) :
    rows.flatten.length = w * rows.length := by
  induction rows with
  | nil => simp
  | cons r rest ih =>
    have hr : r.length = w := hw r (List.mem_cons_self r rest)
    have hrest := ih fun s hs => hw s (List.mem_cons_of_mem r hs)
    simp only [List.flatten_cons, List.length_append, List.length_cons, hr, hrest]
    ring

theorem flatten_block {α : Type} (w : ℕ) (rows : List (List α))
    (hw : ∀ r ∈ rows, r.length = w) (i : ℕ) (hi : i < rows.length) :
    (rows.flatten.drop (w * i)).take w = rows.get ⟨i, hi⟩ := by
  induction rows generalizing i with
  | nil => simp at hi
  | cons r rest ih =>
    have hr : r.length = w := hw r (List.mem_cons_self r rest)
    have hrest : ∀ s ∈ rest, s.length = w := fun s hs =>
      hw s (List.mem_cons_of_mem r hs)
    cases i with
    | zero =>
      simp only [List.flatten_cons, Nat.mul_zero, List.drop_zero,
        List.get_eq_getElem, List.getElem_cons_zero]
      rw [← hr, List.take_left]
    | succ j =>
      have hj : j < rest.length := by
        simp only [List.length_cons] at hi
        omega
      have hmul : w * (j + 1) = r.length + w * j := by
        rw [hr]; ring
      rw [List.flatten_cons, hmul, ← List.drop_drop, List.drop_left]
      simp only [List.get_eq_getElem, List.getElem_cons_succ]
      have := ih hrest j hj
      simp only [List.get_eq_getElem] at this
      exact this

/-! ### Claim theorems -/

/-- C4: for every peptide over the 20-letter alphabet, blosum_encode
returns the flat vector obtained by concatenating, position by position
in sequence order, the BLOSUM62 column of the amino acid at that
position (21 values including the gap symbol), so the output dimension
equals 21 × peptide length. -/
theorem blosum_encode_spec (blosum : AA → List ℚ)
    (hb : ∀ a, (blosum a).length = 21) (seq : List AA) (i : ℕ)
    (hi : i < seq.length) :
    (blosum_encode blosum seq).length = 21 * seq.length ∧
    ((blosum_encode blosum seq).drop (21 * i)).take 21 =
      blosum (seq.get ⟨i, hi⟩) := by
  have hrows : ∀ r ∈ seq.map blosum, r.length = 21 := by
    intro r hr
    obtain ⟨a, _, rfl⟩ := List.mem_map.mp hr
    exact hb a
  have hi2 : i < (seq.map blosum).length := by simpa using hi
  constructor
  · rw [blosum_encode, flatten_length_const 21 _ hrows, List.length_map]
  · rw [blosum_encode, flatten_block 21 _ hrows i hi2]
    simp

theorem blosum_encode_spec_witness :
    (∀ a : AA, ((fun _ : AA => List.replicate 21 (0 : ℚ)) a).length = 21) ∧
    (0 : ℕ) < pep.length ∧
    (blosum_encode (fun _ : AA => List.replicate 21 (0 : ℚ)) pep).length =
      21 * pep.length ∧
    ((blosum_encode (fun _ : AA => List.replicate 21 (0 : ℚ)) pep).drop
        (21 * 0)).take 21 =
      (fun _ : AA => List.replicate 21 (0 : ℚ)) (pep.get ⟨0, by decide⟩) :=
  ⟨fun _ => by simp, by decide,
   (blosum_encode_spec _ (fun _ => by simp) pep 0 (by decide)).1,
   (blosum_encode_spec _ (fun _ => by simp) pep 0 (by decide)).2⟩

/-- C1: nlf_encode does NOT return a flat numeric vector: the source
ends with `e = x.values.flatten` (no call parentheses), so on the
notebook's own sample peptide pep it returns the bound flatten method
object.  The intended computation — actually flattening, as the
notebook's cell-3 text and the spec describe — would return a flat
vector of dimension 19 × peptide length. -/
theorem nlf_encode_bound_method (nlf : AA → List ℚ)
    (hn : ∀ a, (nlf a).length = 19) :
    (∀ v, nlf_encode nlf pep ≠ NlfResult.flat v) ∧
    (nlf_encode_intended nlf pep).length = 19 * pep.length := by
  constructor
  · intro v h
    exact NlfResult.noConfusion h
  · have hrows : ∀ r ∈ pep.map nlf, r.length = 19 := by
      intro r hr
      obtain ⟨a, _, rfl⟩ := List.mem_map.mp hr
      exact hn a
    rw [nlf_encode_intended, flatten_length_const 19 _ hrows, List.length_map]

theorem nlf_encode_bound_method_witness :
    (∀ a : AA, ((fun _ : AA => List.replicate 19 (0 : ℚ)) a).length = 19) ∧
    (∀ v, nlf_encode (fun _ : AA => List.replicate 19 (0 : ℚ)) pep ≠
      NlfResult.flat v) ∧
    (nlf_encode_intended (fun _ : AA => List.replicate 19 (0 : ℚ)) pep).length =
      19 * pep.length :=
  ⟨fun _ => by simp,
   (nlf_encode_bound_method _ (fun _ => by simp)).1,
   (nlf_encode_bound_method _ (fun _ => by simp)).2⟩

/-- C5: the linearized affinity target log50k = 1 − log(IC50)/log(50000)
equals 0 at IC50 = 50000 and 1 at IC50 = 1. -/
theorem log50k_values : log50k 50000 = 0 ∧ log50k 1 = 1 := by
  constructor
  · rw [log50k, div_self (ne_of_gt (Real.log_pos (by norm_num)))]
    ring
  · rw [log50k, Real.log_one, zero_div]
    ring

/-- C8: random_encode ignores its parameter p: its output length always
equals the length of the module-level pep, which is 9, and every
element is an integer in the range 0 to 19. -/
theorem random_encode_spec (rng : ℕ → Fin 20) (p : List AA) :
    (random_encode rng p).length = pep.length ∧ pep.length = 9 ∧
    (random_encode rng p).all (fun x => decide (x < 20)) = true := by
  refine ⟨by simp [random_encode], rfl, ?_⟩
  rw [List.all_eq_true]
  intro x hx
  simp only [random_encode, List.mem_map, List.mem_range] at hx
  obtain ⟨i, _, rfl⟩ := hx
  exact decide_eq_true (rng i).isLt

/-- C3: build_predictor produces no model when the allele's training
set has fewer than 200 samples; with 200 or more samples it fits the
regressor on all encoded peptides against the log50k targets and
returns the fitted regressor. -/
theorem build_predictor_spec (d : List TrainRecord) (al : ℕ)
    (encoder : List AA → List ℚ) :
    ((get_training_set d (some al) none).length < 200 →
      build_predictor d al encoder = none) ∧
    (200 ≤ (get_training_set d (some al) none).length →
      build_predictor d al encoder = some
        ⟨(get_training_set d (some al) none).map fun r => encoder r.peptide,
         (get_training_set d (some al) none).map fun r => r.log50k⟩) := by
  constructor
  · intro h
    simp only [build_predictor]
    rw [if_pos h]
  · intro h
    simp only [build_predictor]
    rw [if_neg (by omega)]

theorem build_predictor_spec_witness :
    build_predictor [] 0 (fun _ => []) = none ∧
    (build_predictor
      (List.replicate 200 (⟨0, pep, 0, 9, 0⟩ : TrainRecord)) 0
      (fun _ => [])).isSome = true := by
  constructor
  · exact (build_predictor_spec [] 0 _).1 (by decide)
  · rw [(build_predictor_spec
      (List.replicate 200 (⟨0, pep, 0, 9, 0⟩ : TrainRecord)) 0
      (fun _ => [])).2 (by decide)]
    rfl

/-- C2: for every peptide over the 20-letter alphabet, one_hot_encode
returns a vector of length 20 × peptide length in which the i-th
20-element block is the indicator vector with a single 1 at the index
of the i-th amino acid in the alphabetically sorted alphabet and 0
everywhere else. -/
theorem one_hot_encode_spec (seq : List AA) (i : ℕ) (hi : i < seq.length) :
    (one_hot_encode seq).length = 20 * seq.length ∧
    ((one_hot_encode seq).drop (20 * i)).take 20 =
      (List.range 20).map
        fun j => if j = aaIndex (seq.get ⟨i, hi⟩) then 1 else 0 := by
  have hrow : ∀ a : AA, (codes.map fun c => if c = a then (1 : ℕ) else 0) =
      (List.range 20).map fun j => if j = aaIndex a then 1 else 0 := by
    intro a
    cases a <;> decide
  have hrows : ∀ r ∈ seq.map fun a => codes.map fun c =>
      if c = a then (1 : ℕ) else 0, r.length = 20 := by
    intro r hr
    obtain ⟨a, _, rfl⟩ := List.mem_map.mp hr
    simp [codes]
  have hi2 : i < (seq.map fun a => codes.map fun c =>
      if c = a then (1 : ℕ) else 0).length := by simpa using hi
  constructor
  · rw [one_hot_encode, flatten_length_const 20 _ hrows, List.length_map]
  · rw [one_hot_encode, flatten_block 20 _ hrows i hi2]
    simp only [List.get_eq_getElem, List.getElem_map]
    exact hrow _

theorem one_hot_encode_spec_witness :
    (0 : ℕ) < pep.length ∧
    (one_hot_encode pep).length = 20 * pep.length ∧
    ((one_hot_encode pep).drop (20 * 0)).take 20 =
      (List.range 20).map
        fun j => if j = aaIndex (pep.get ⟨0, by decide⟩) then 1 else 0 :=
  ⟨by decide, (one_hot_encode_spec pep 0 (by decide)).1,
   (one_hot_encode_spec pep 0 (by decide)).2⟩

/-! ### The batch-evaluation loop -/

theorem evalLoop_foldl (ev : ℕ → Except String (ℚ × ℕ))
    (alleles : List ℕ) :
    ∀ acc : List (ℕ × ℚ × ℕ) × List (ℕ × String),
      alleles.foldl (evalStep ev) acc =
        (acc.1 ++ (evalLoop ev alleles).1, acc.2 ++ (evalLoop ev alleles).2) := by
  induction alleles with
  | nil =>
    intro acc
    simp [evalLoop]
  | cons a rest ih =>
    intro acc
    simp only [evalLoop, List.foldl_cons]
    rw [ih, ih (evalStep ev ([], []) a)]
    cases hev : ev a <;> simp [evalStep, hev]

theorem evalLoop_append (ev : ℕ → Except String (ℚ × ℕ))
    (xs ys : List ℕ) :
    evalLoop ev (xs ++ ys) =
      ((evalLoop ev xs).1 ++ (evalLoop ev ys).1,
       (evalLoop ev xs).2 ++ (evalLoop ev ys).2) := by
  rw [evalLoop, List.foldl_append]
  rw [show xs.foldl (evalStep ev) ([], []) = evalLoop ev xs from rfl]
  exact evalLoop_foldl ev ys (evalLoop ev xs)

/-- C6: in the batch-evaluation loop, when evaluating allele a raises
an exception, the exception is caught and logged, allele a contributes
no row, the rows already collected for the alleles evaluated before it
are unchanged, and evaluation continues with the remaining alleles. -/
theorem evalLoop_error_skips (ev : ℕ → Except String (ℚ × ℕ))
    (pre post : List ℕ) (a : ℕ) (e : String)
    (he : ev a = Except.error e) :
    evalLoop ev (pre ++ a :: post) =
      ((evalLoop ev pre).1 ++ (evalLoop ev post).1,
       (evalLoop ev pre).2 ++ (a, e) :: (evalLoop ev post).2) := by
  have h1 : evalLoop ev (a :: post) =
      ((evalLoop ev post).1, (a, e) :: (evalLoop ev post).2) := by
    rw [evalLoop, List.foldl_cons, evalLoop_foldl ev post (evalStep ev ([], []) a)]
    simp [evalStep, he]
  rw [evalLoop_append ev pre (a :: post), h1]

def evBoom : ℕ → Except String (ℚ × ℕ) :=
  fun a => if a == 1 then Except.error "boom" else Except.ok (1, a)

theorem evalLoop_error_skips_witness :
    evBoom 1 = Except.error "boom" ∧
    evalLoop evBoom ([0] ++ 1 :: [2]) =
      ((evalLoop evBoom [0]).1 ++ (evalLoop evBoom [2]).1,
       (evalLoop evBoom [0]).2 ++ (1, "boom") :: (evalLoop evBoom [2]).2) :=
  ⟨rfl, evalLoop_error_skips evBoom [0] [2] 1 "boom" rfl⟩

/-! ### ROC-AUC lemmas -/

theorem binarize_eq_of_sep (c : ℚ) (tr sc : List ℚ)
    (hlen : tr.length = sc.length)
    (hsep : ∀ p ∈ tr.zip sc, (p.1 ≤ c ↔ p.2 ≤ c)) :
    binarize c tr = binarize c sc := by
  induction tr generalizing sc with
  | nil =>
    cases sc with
    | nil => rfl
    | cons y ys => simp at hlen
  | cons x xs ih =>
    cases sc with
    | nil => simp at hlen
    | cons y ys =>
      simp only [List.zip_cons_cons] at hsep
      have hxy : x ≤ c ↔ y ≤ c := hsep (x, y) (List.mem_cons_self _ _)
      have hrest : ∀ p ∈ xs.zip ys, (p.1 ≤ c ↔ p.2 ≤ c) := fun p hp =>
        hsep p (List.mem_cons_of_mem _ hp)
      have hlen2 : xs.length = ys.length := by simpa using hlen
      have h1 : (if x ≤ c then (1 : ℚ) else 0) =
          (if y ≤ c then (1 : ℚ) else 0) := by
        by_cases hx : x ≤ c
        · rw [if_pos hx, if_pos (hxy.mp hx)]
        · rw [if_neg hx, if_neg fun h => hx (hxy.mpr h)]
      have h2 := ih ys hlen2 hrest
      simp only [binarize, List.map_cons] at h2 ⊢
      rw [h1, h2]

theorem zip_self_filter_map (q : ℚ → Bool) (l : List ℚ) :
    ((l.zip l).filter fun p => q p.1).map (fun p => p.2) = l.filter q := by
  induction l with
  | nil => rfl
  | cons x xs ih =>
    simp only [List.zip_cons_cons, List.filter_cons]
    cases hq : q x
    · simpa [hq] using ih
    · simpa [hq] using ih

theorem zip_self_pos (l : List ℚ) :
    ((l.zip l).filter fun p => p.1 == 1).map (fun p => p.2) =
      l.filter fun x => x == 1 :=
  zip_self_filter_map (fun x => x == 1) l

theorem zip_self_neg (l : List ℚ) :
    ((l.zip l).filter fun p => p.1 != 1).map (fun p => p.2) =
      l.filter fun x => x != 1 :=
  zip_self_filter_map (fun x => x != 1) l

theorem sum_pairWins_ones (neg : List ℚ) (hn : ∀ y ∈ neg, y = 0) :
    (neg.map fun sn => pairWins 1 sn).sum = (neg.length : ℚ) := by
  induction neg with
  | nil => simp
  | cons y ys ih =>
    have hy : y = 0 := hn y (List.mem_cons_self y ys)
    have hys := ih fun z hz => hn z (List.mem_cons_of_mem y hz)
    subst hy
    simp only [List.map_cons, List.sum_cons, hys, List.length_cons]
    rw [show pairWins 1 0 = 1 from by norm_num [pairWins]]
    push_cast
    ring

theorem sum_pairWins_grid (pos neg : List ℚ)
    (hp : ∀ x ∈ pos, x = 1) (hn : ∀ y ∈ neg, y = 0) :
    (pos.map fun sp => (neg.map fun sn => pairWins sp sn).sum).sum =
      (pos.length : ℚ) * (neg.length : ℚ) := by
  induction pos with
  | nil => simp
  | cons x xs ih =>
    have hx : x = 1 := hp x (List.mem_cons_self x xs)
    have hxs := ih fun z hz => hp z (List.mem_cons_of_mem x hz)
    subst hx
    simp only [List.map_cons, List.sum_cons, hxs, List.length_cons,
      sum_pairWins_ones neg hn]
    push_cast
    ring

theorem rocAuc_self (l : List ℚ) (h01 : ∀ x ∈ l, x = 0 ∨ x = 1)
    (h1 : ∃ x ∈ l, x = 1) (h0 : ∃ x ∈ l, x = 0) :
    rocAuc l l = 1 := by
  simp only [rocAuc, zip_self_pos, zip_self_neg]
  have hpelem : ∀ x ∈ l.filter fun x => x == 1, x = 1 := by
    intro x hx
    exact eq_of_beq (List.mem_filter.mp hx).2
  have hnelem : ∀ y ∈ l.filter fun x => x != 1, y = 0 := by
    intro y hy
    have h3 : ¬ y = 1 := by simpa using (List.mem_filter.mp hy).2
    rcases h01 y (List.mem_filter.mp hy).1 with h | h
    · exact h
    · exact absurd h h3
  rw [sum_pairWins_grid _ _ hpelem hnelem]
  have hP : 0 < (l.filter fun x => x == 1).length := by
    obtain ⟨x, hx, rfl⟩ := h1
    exact List.length_pos_of_mem (List.mem_filter.mpr ⟨hx, by simp⟩)
  have hN : 0 < (l.filter fun x => x != 1).length := by
    obtain ⟨x, hx, rfl⟩ := h0
    exact List.length_pos_of_mem (List.mem_filter.mpr ⟨hx, by norm_num⟩)
  apply div_self
  have hPq : (0 : ℚ) < ((l.filter fun x => x == 1).length : ℚ) := by
    exact_mod_cast hP
  have hNq : (0 : ℚ) < ((l.filter fun x => x != 1).length : ℚ) := by
    exact_mod_cast hN
  exact ne_of_gt (mul_pos hPq hNq)

/-- C7: on every pair of equal-length true-value and score sequences
perfectly separated at the chosen cutoff — every true positive (true
value on the ≤ cutoff side) has its score on the ≤ cutoff side and
every true negative has its score on the > cutoff side, with both
classes non-empty — auc_score returns exactly 1. -/
theorem auc_score_perfect (tr sc : List ℚ) (c : ℚ)
    (hlen : tr.length = sc.length)
    (hsep : ∀ p ∈ tr.zip sc, (p.1 ≤ c ↔ p.2 ≤ c))
    (hpos : ∃ x ∈ tr, x ≤ c)
    (hneg : ∃ x ∈ tr, ¬ x ≤ c) :
    auc_score tr sc (some c) = 1 := by
  have hb : binarize c tr = binarize c sc := binarize_eq_of_sep c tr sc hlen hsep
  have h01 : ∀ x ∈ binarize c tr, x = 0 ∨ x = 1 := by
    intro x hx
    simp only [binarize, List.mem_map] at hx
    obtain ⟨v, _, rfl⟩ := hx
    by_cases h : v ≤ c
    · right; rw [if_pos h]
    · left; rw [if_neg h]
  have h1 : ∃ x ∈ binarize c tr, x = 1 := by
    obtain ⟨v, hv, hvc⟩ := hpos
    exact ⟨if v ≤ c then 1 else 0, List.mem_map_of_mem _ hv, if_pos hvc⟩
  have h0 : ∃ x ∈ binarize c tr, x = 0 := by
    obtain ⟨v, hv, hvc⟩ := hneg
    exact ⟨if v ≤ c then 1 else 0, List.mem_map_of_mem _ hv, if_neg hvc⟩
  show rocAuc (binarize c tr) (binarize c sc) = 1
  rw [← hb]
  exact rocAuc_self _ h01 h1 h0

theorem auc_score_perfect_witness :
    ([(100 : ℚ), 600].length = [(50 : ℚ), 700].length) ∧
    (∀ p ∈ [(100 : ℚ), 600].zip [(50 : ℚ), 700], (p.1 ≤ 500 ↔ p.2 ≤ 500)) ∧
    (∃ x ∈ [(100 : ℚ), 600], x ≤ 500) ∧
    (∃ x ∈ [(100 : ℚ), 600], ¬ x ≤ 500) ∧
    auc_score [(100 : ℚ), 600] [(50 : ℚ), 700] (some 500) = 1 :=
  ⟨rfl, by decide, by decide, by decide,
   auc_score_perfect _ _ _ rfl (by decide) (by decide) (by decide)⟩

/-- C9: with a non-None cutoff, auc_score binarizes both the true
values and the scores with (value ≤ cutoff) before the ROC computation
(so the AUC is computed over binary labels on both sides, every
binarized entry being 0 or 1), and evaluate_predictor applies exactly
this with cutoff 500 to the raw ic50 truth values and the predictor
scores. -/
theorem auc_score_binarizes (scoreFn : List AA → ℚ) (data : List EvalRecord) :
    (∀ tr sc c, auc_score tr sc (some c) =
      rocAuc (binarize c tr) (binarize c sc)) ∧
    (∀ c lvals x, x ∈ binarize c lvals → x = 0 ∨ x = 1) ∧
    (evaluate_predictor scoreFn data).1 =
      rocAuc (binarize 500 (data.map fun r => r.ic50))
        (binarize 500 (data.map fun r => scoreFn r.peptide)) := by
  refine ⟨fun tr sc c => rfl, ?_, ?_⟩
  · intro c lvals x hx
    simp only [binarize, List.mem_map] at hx
    obtain ⟨v, _, rfl⟩ := hx
    by_cases h : v ≤ c
    · right; rw [if_pos h]
    · left; rw [if_neg h]
  · simp only [evaluate_predictor, auc_score, List.map_map]
    rfl

theorem auc_score_binarizes_witness :
    auc_score [(0 : ℚ)] [(0 : ℚ)] (some 0) =
      rocAuc (binarize 0 [(0 : ℚ)]) (binarize 0 [(0 : ℚ)]) ∧
    ((1 : ℚ) ∈ binarize 0 [(0 : ℚ)] ∧ ((1 : ℚ) = 0 ∨ (1 : ℚ) = 1)) ∧
    (evaluate_predictor (fun _ => 0) [⟨pep, 100⟩]).1 =
      rocAuc
        (binarize 500 (([⟨pep, 100⟩] : List EvalRecord).map fun r => r.ic50))
        (binarize 500 (([⟨pep, 100⟩] : List EvalRecord).map
          fun r => (fun _ : List AA => (0 : ℚ)) r.peptide)) :=
  ⟨(auc_score_binarizes (fun _ => 0) []).1 [(0 : ℚ)] [(0 : ℚ)] 0,
   ⟨by decide, (auc_score_binarizes (fun _ => 0) []).2.1 0 [(0 : ℚ)] 1 (by decide)⟩,
   (auc_score_binarizes (fun _ => 0) [⟨pep, 100⟩]).2.2⟩

/-- C10: every allele returned by get_allele_names has a length-9
training count strictly greater than 200, which keeps it clear of
build_predictor's fewer-than-200 rejection (the full per-allele
training set is at least as large as its length-9 subset, so the
no-model branch is unreachable for such alleles), while an allele with
exactly 200 length-9 samples passes build_predictor's guard yet is
never selected by get_allele_names. -/
theorem get_allele_names_spec (d : List TrainRecord) (a : ℕ)
    (encoder : List AA → List ℚ) :
    (a ∈ get_allele_names d →
      200 < allele_count9 d a ∧
      (build_predictor d a encoder).isSome = true) ∧
    (allele_count9 d a = 200 → a ∉ get_allele_names d) ∧
    (∀ d2 al2, (get_training_set d2 (some al2) none).length = 200 →
      (build_predictor d2 al2 encoder).isSome = true) := by
  have hcount : allele_count9 d a ≤
      (get_training_set d (some a) none).length := by
    have h1 : (get_training_set d none (some 9)).Sublist d := by
      simp only [get_training_set]
      exact List.filter_sublist d
    have h2 := List.Sublist.filter (fun r => r.allele == a) h1
    have h3 := List.Sublist.length_le h2
    simpa [allele_count9, get_training_set] using h3
  refine ⟨?_, ?_, ?_⟩
  · intro ha
    have hmem := List.mem_filter.mp ha
    have hgt : 200 < allele_count9 d a := of_decide_eq_true hmem.2
    refine ⟨hgt, ?_⟩
    simp only [build_predictor]
    rw [if_neg (by omega)]
    rfl
  · intro h200 ha
    have hmem := List.mem_filter.mp ha
    have hgt : 200 < allele_count9 d a := of_decide_eq_true hmem.2
    omega
  · intro d2 al2 h
    simp only [build_predictor]
    rw [if_neg (by omega)]
    rfl

def d201ex : List TrainRecord := List.replicate 201 ⟨0, pep, 0, 9, 0⟩

def d200ex : List TrainRecord := List.replicate 200 ⟨0, pep, 0, 9, 0⟩

theorem get_allele_names_spec_witness :
    (0 ∈ get_allele_names d201ex ∧
      200 < allele_count9 d201ex 0 ∧
      (build_predictor d201ex 0 (fun _ => [])).isSome = true) ∧
    (allele_count9 d200ex 0 = 200 ∧ 0 ∉ get_allele_names d200ex) ∧
    ((get_training_set d200ex (some 0) none).length = 200 ∧
      (build_predictor d200ex 0 (fun _ => [])).isSome = true) :=
  ⟨⟨by decide, (get_allele_names_spec d201ex 0 (fun _ => [])).1 (by decide)⟩,
   ⟨by decide, (get_allele_names_spec d200ex 0 (fun _ => [])).2.1 (by decide)⟩,
   ⟨by decide, (get_allele_names_spec d200ex 0 (fun _ => [])).2.2 d200ex 0
      (by decide)⟩⟩

end Mhci
